import Mathlib

/-!
Verification of the ALSA device driver (`src/alsa.c`) of this repository
against its natural-language specification.

The C code is shallowly embedded: the static format catalog, the format
selector `select_format`, the per-sample codec used by `read_`/`write_`,
the buffer-geometry arithmetic of `setup`, the error-recovery classifier
`recover`, and the teardown paths `stop`/`stop_write` are translated into
executable Lean definitions.  Machine integers are modelled as `Nat`/`Int`
with explicit modular reductions where the C code relies on wrap-around.
Loops are translated into structurally recursive functions; the bounded
index loops of `select_format` carry an explicit fuel argument that is
always at least the number of iterations the C loop can perform (the
catalog has ten entries, so fuel `10`/`12` is exact for every reachable
input).
-/

namespace SoxAlsa

/-! ## Format catalog (`formats[]`, alsa.c lines 36-54) -/

/-- Device sample layouts named in the catalog.  The constructor `other`
stands for any ALSA format identifier different from the nine catalog
entries; it is the value that reaches the defensive `default:` arm of the
codec switches. -/
inductive AlsaFmt
  | s8 | u8 | s16 | u16 | s24 | u24 | s24_3le | s32 | u32 | other
deriving DecidableEq, Fintype

/-- Encoding classes compared by the selector.  `sign2` and `unsigned`
are the two encodings occurring in the catalog, `unknown` is the sentinel
entry's encoding, and `otherEnc` stands for any further `sox_encoding_t`
value a caller might request. -/
inductive SoxEnc
  | sign2 | unsigned | unknown | otherEnc
deriving DecidableEq, Fintype

/-- One row of the static `formats[]` table: bit depth, ALSA format
identifier, occupied bytes per sample, encoding class. -/
structure FmtEntry where
  bits : Nat
  alsa_fmt : AlsaFmt
  bytes : Nat
  enc : SoxEnc
deriving DecidableEq

/-- The static catalog, in source order, including the terminating
sentinel row.  In the C source the sentinel's `alsa_fmt` field is the
integer `0`, which is the value of `SND_PCM_FORMAT_S8` in the ALSA enum;
the sentinel is never mask-tested because every loop stops at
`bits == 0`. -/
def formats : List FmtEntry :=
  [ ⟨8, .s8, 1, .sign2⟩,
    ⟨8, .u8, 1, .unsigned⟩,
    ⟨16, .s16, 2, .sign2⟩,
    ⟨16, .u16, 2, .unsigned⟩,
    ⟨24, .s24, 4, .sign2⟩,
    ⟨24, .u24, 4, .unsigned⟩,
    ⟨24, .s24_3le, 3, .sign2⟩,
    ⟨32, .s32, 4, .sign2⟩,
    ⟨32, .u32, 4, .unsigned⟩,
    ⟨0, .s8, 0, .unknown⟩ ]

/-- Indexing into `formats[]`.  Out-of-range indices yield the sentinel
row (the C code never indexes out of range). -/
def fmtAt (i : Nat) : FmtEntry := formats.getD i ⟨0, .s8, 0, .unknown⟩

/-! ## Format selector (`select_format`, alsa.c lines 56-108) -/

/-- Loop `while (formats[from].bits < *nbits_ && formats[from].bits != 0)
from++;` (line 65).  Fuel `10` covers the whole table. -/
def findFromAux (nbits : Nat) : Nat → Nat → Nat
  | 0, i => i
  | fuel+1, i =>
    if (fmtAt i).bits < nbits ∧ (fmtAt i).bits ≠ 0
    then findFromAux nbits fuel (i+1) else i

def findFrom (nbits : Nat) : Nat := findFromAux nbits 10 0

/-- Loop `for (to = from; formats[to].bits != 0; to++);` (line 67). -/
def findToAux : Nat → Nat → Nat
  | 0, i => i
  | fuel+1, i => if (fmtAt i).bits ≠ 0 then findToAux fuel (i+1) else i

/-- Inner candidate scan, lines 71-81: try indices `i < hi`; an entry
whose mask bit is set and whose encoding matches the request ends the
scan at that index; a mask-set entry with a different encoding is
remembered as candidate only if no earlier candidate exists. -/
def scanGroup (mask : AlsaFmt → Bool) (enc : SoxEnc) :
    Nat → Nat → Nat → Option Nat → Option Nat
  | 0, _, _, cand => cand
  | fuel+1, i, hi, cand =>
    if i < hi then
      if mask (fmtAt i).alsa_fmt then
        if (fmtAt i).enc = enc then some i
        else scanGroup mask enc fuel (i+1) hi (if cand.isNone then some i else cand)
      else scanGroup mask enc fuel (i+1) hi cand
    else cand

/-- Loop `while (from && formats[from-1].bits == bits_next) from--;`
(lines 88-89). -/
def backUpAux : Nat → Nat → Nat → Nat
  | 0, lo, _ => lo
  | fuel+1, lo, bn =>
    if lo ≠ 0 ∧ (fmtAt (lo-1)).bits = bn then backUpAux fuel (lo-1) bn else lo

/-- Outer loop `while (to > 0)` of `select_format`, lines 69-90: scan the
current index range; on failure step down to the next lower bit-depth
group.  The loop runs at most eleven times, so fuel `12` is exact. -/
def outerLoop (mask : AlsaFmt → Bool) (enc : SoxEnc) :
    Nat → Nat → Nat → Option Nat
  | 0, _, _ => none
  | fuel+1, lo, hi =>
    if hi = 0 then none
    else
      match scanGroup mask enc 10 lo hi none with
      | some c => some c
      | none =>
        let bn := if 0 < lo then (fmtAt (lo-1)).bits else 0
        outerLoop mask enc fuel (backUpAux 10 lo bn) lo

/-- Final values of the three out-parameters of `select_format`:
`*encoding_`, `*nbits_` and `*format`.  `format = none` models the C
function returning `-1` with `*format` untouched. -/
structure SelectResult where
  encoding : SoxEnc
  nbits : Nat
  format : Option Nat
deriving DecidableEq

/-- `select_format` (lines 56-108).  On success the requested encoding
and bit depth are overwritten with the chosen entry's values (the C code
only writes them when they differ, which is observationally the same);
on failure all three out-parameters keep their input values. -/
def select_format (enc : SoxEnc) (nbits : Nat) (mask : AlsaFmt → Bool) :
    SelectResult :=
  let lo := findFrom nbits
  match outerLoop mask enc 12 lo (findToAux 10 lo) with
  | none => ⟨enc, nbits, none⟩
  | some c => ⟨(fmtAt c).enc, (fmtAt c).bits, some c⟩


/-! ## Selector lemmas -/

theorem backUpAux_le (fuel lo bn : Nat) : backUpAux fuel lo bn ≤ lo := by
  induction fuel generalizing lo with
  | zero => simp [backUpAux]
  | succ n ih =>
    simp only [backUpAux]
    split
    · exact le_trans (ih _) (by omega)
    · exact le_refl _

theorem findFrom_eq (nbits : Nat) :
    findFrom nbits =
      if nbits ≤ 8 then 0 else if nbits ≤ 16 then 2 else if nbits ≤ 24 then 4
      else if nbits ≤ 32 then 7 else 9 := by
  simp only [findFrom, findFromAux, fmtAt, formats, List.getD, List.getElem?_cons_zero,
    List.getElem?_cons_succ, Option.getD]
  norm_num
  split_ifs <;> omega

theorem findFrom_le (nbits : Nat) : findFrom nbits ≤ 9 := by
  rw [findFrom_eq]; split_ifs <;> omega

theorem findTo_eq (lo : Nat) (h : lo ≤ 9) : findToAux 10 lo = 9 := by
  interval_cases lo <;> decide

theorem scanGroup_some (mask : AlsaFmt → Bool) (enc : SoxEnc) :
    ∀ (fuel i hi : Nat) (cand : Option Nat) (c : Nat),
      scanGroup mask enc fuel i hi cand = some c →
      cand = some c ∨ (i ≤ c ∧ c < hi ∧ mask (fmtAt c).alsa_fmt = true) := by
  intro fuel
  induction fuel with
  | zero => intro i hi cand c h; exact Or.inl h
  | succ n ih =>
    intro i hi cand c h
    simp only [scanGroup] at h
    by_cases hih : i < hi
    · rw [if_pos hih] at h
      by_cases hm : mask (fmtAt i).alsa_fmt
      · rw [if_pos hm] at h
        by_cases he : (fmtAt i).enc = enc
        · rw [if_pos he] at h
          right
          have : i = c := by simpa using h
          subst this
          exact ⟨le_refl _, hih, by simp [hm]⟩
        · rw [if_neg he] at h
          rcases ih _ _ _ _ h with h1 | ⟨h1, h2, h3⟩
          · cases cand with
            | none =>
              simp at h1
              subst h1
              exact Or.inr ⟨le_refl _, hih, by simp [hm]⟩
            | some d => simp at h1; left; simp [h1]
          · right; exact ⟨by omega, h2, h3⟩
      · rw [if_neg hm] at h
        rcases ih _ _ _ _ h with h1 | ⟨h1, h2, h3⟩
        · exact Or.inl h1
        · right; exact ⟨by omega, h2, h3⟩
    · rw [if_neg hih] at h
      exact Or.inl h

theorem scanGroup_none (mask : AlsaFmt → Bool) (enc : SoxEnc) :
    ∀ (fuel i hi : Nat) (cand : Option Nat),
      (∀ j, i ≤ j → j < hi → mask (fmtAt j).alsa_fmt = false) →
      scanGroup mask enc fuel i hi cand = cand := by
  intro fuel
  induction fuel with
  | zero => intro i hi cand _; rfl
  | succ n ih =>
    intro i hi cand hnone
    simp only [scanGroup]
    by_cases hih : i < hi
    · rw [if_pos hih]
      have hm : mask (fmtAt i).alsa_fmt = false := hnone i (le_refl _) hih
      rw [if_neg (by simp [hm])]
      exact ih _ _ _ (fun j h1 h2 => hnone j (by omega) h2)
    · rw [if_neg hih]

theorem scanGroup_isSome_of_cand (mask : AlsaFmt → Bool) (enc : SoxEnc) :
    ∀ (fuel i hi d : Nat),
      ∃ c, scanGroup mask enc fuel i hi (some d) = some c := by
  intro fuel
  induction fuel with
  | zero => intro i hi d; exact ⟨d, rfl⟩
  | succ n ih =>
    intro i hi d
    simp only [scanGroup]
    by_cases hih : i < hi
    · rw [if_pos hih]
      by_cases hm : mask (fmtAt i).alsa_fmt
      · rw [if_pos hm]
        by_cases he : (fmtAt i).enc = enc
        · rw [if_pos he]; exact ⟨i, rfl⟩
        · rw [if_neg he]; simpa using ih (i+1) hi d
      · rw [if_neg hm]; exact ih _ _ _
    · rw [if_neg hih]; exact ⟨d, rfl⟩

theorem scanGroup_finds (mask : AlsaFmt → Bool) (enc : SoxEnc) :
    ∀ (fuel i hi : Nat) (cand : Option Nat),
      hi - i ≤ fuel →
      (∃ j, i ≤ j ∧ j < hi ∧ mask (fmtAt j).alsa_fmt = true) →
      ∃ c, scanGroup mask enc fuel i hi cand = some c := by
  intro fuel
  induction fuel with
  | zero =>
    intro i hi cand hf h
    rcases h with ⟨j, h1, h2, _⟩
    omega
  | succ n ih =>
    intro i hi cand hf h
    rcases h with ⟨j, h1, h2, h3⟩
    have hih : i < hi := by omega
    simp only [scanGroup, if_pos hih]
    by_cases hm : mask (fmtAt i).alsa_fmt
    · rw [if_pos hm]
      by_cases he : (fmtAt i).enc = enc
      · rw [if_pos he]; exact ⟨i, rfl⟩
      · rw [if_neg he]
        cases cand with
        | none => simpa using scanGroup_isSome_of_cand mask enc n (i+1) hi i
        | some d => simpa using scanGroup_isSome_of_cand mask enc n (i+1) hi d
    · rw [if_neg hm]
      have hji : j ≠ i := by
        intro hji
        rw [hji] at h3
        simp [h3] at hm
      exact ih (i+1) hi cand (by omega) ⟨j, by omega, h2, h3⟩

theorem scanGroup_first_exact (mask : AlsaFmt → Bool) (enc : SoxEnc) :
    ∀ (fuel i hi : Nat) (cand : Option Nat) (j0 : Nat),
      hi - i ≤ fuel → i ≤ j0 → j0 < hi →
      mask (fmtAt j0).alsa_fmt = true → (fmtAt j0).enc = enc →
      (∀ j, i ≤ j → j < j0 → ¬(mask (fmtAt j).alsa_fmt = true ∧ (fmtAt j).enc = enc)) →
      scanGroup mask enc fuel i hi cand = some j0 := by
  intro fuel
  induction fuel with
  | zero => intro i hi cand j0 hf h1 h2 _ _ _; omega
  | succ n ih =>
    intro i hi cand j0 hf h1 h2 h3 h4 hmin
    have hih : i < hi := by omega
    simp only [scanGroup, if_pos hih]
    by_cases hi0 : i = j0
    · subst hi0
      rw [if_pos (by simp [h3]), if_pos h4]
    · have hlt : i < j0 := by omega
      by_cases hm : mask (fmtAt i).alsa_fmt
      · rw [if_pos hm]
        have he : (fmtAt i).enc ≠ enc := by
          intro he
          exact hmin i (le_refl _) hlt ⟨by simp [hm], he⟩
        rw [if_neg he]
        exact ih (i+1) hi _ j0 (by omega) (by omega) h2 h3 h4
          (fun j hj1 hj2 => hmin j (by omega) hj2)
      · rw [if_neg hm]
        exact ih (i+1) hi cand j0 (by omega) (by omega) h2 h3 h4
          (fun j hj1 hj2 => hmin j (by omega) hj2)

theorem outerLoop_some (mask : AlsaFmt → Bool) (enc : SoxEnc) :
    ∀ (fuel lo hi c : Nat), lo ≤ 9 → hi ≤ 9 →
      outerLoop mask enc fuel lo hi = some c →
      c < 9 ∧ mask (fmtAt c).alsa_fmt = true := by
  intro fuel
  induction fuel with
  | zero => intro lo hi c _ _ h; simp [outerLoop] at h
  | succ n ih =>
    intro lo hi c hlo hhi h
    simp only [outerLoop] at h
    by_cases hz : hi = 0
    · rw [if_pos hz] at h; simp at h
    · rw [if_neg hz] at h
      cases hsg : scanGroup mask enc 10 lo hi none with
      | some d =>
        rw [hsg] at h
        have hdc : d = c := by simpa using h
        subst hdc
        rcases scanGroup_some mask enc 10 lo hi none d hsg with h1 | ⟨_, h2, h3⟩
        · simp at h1
        · exact ⟨by omega, h3⟩
      | none =>
        rw [hsg] at h
        exact ih _ _ _ (le_trans (backUpAux_le _ _ _) hlo) hlo h

theorem outerLoop_none_of_unsupported (mask : AlsaFmt → Bool) (enc : SoxEnc)
    (hmask : ∀ i, i < 9 → mask (fmtAt i).alsa_fmt = false) :
    ∀ (fuel lo hi : Nat), lo ≤ 9 → hi ≤ 9 →
      outerLoop mask enc fuel lo hi = none := by
  intro fuel
  induction fuel with
  | zero => intro lo hi _ _; rfl
  | succ n ih =>
    intro lo hi hlo hhi
    simp only [outerLoop]
    by_cases hz : hi = 0
    · rw [if_pos hz]
    · rw [if_neg hz]
      rw [scanGroup_none mask enc 10 lo hi none
        (fun j _ h2 => hmask j (by omega))]
      exact ih _ _ (le_trans (backUpAux_le _ _ _) hlo) hlo




/-! ## Claims C1 and C3: format selector -/

theorem outerLoop_of_scan_some (mask : AlsaFmt → Bool) (enc : SoxEnc)
    (fuel lo hi c : Nat) (hhi : ¬ hi = 0)
    (h : scanGroup mask enc 10 lo hi none = some c) :
    outerLoop mask enc (fuel+1) lo hi = some c := by
  simp only [outerLoop]
  rw [if_neg hhi, h]


theorem select_format_of_outer_none (enc : SoxEnc) (nbits : Nat)
    (mask : AlsaFmt → Bool)
    (h : outerLoop mask enc 12 (findFrom nbits) 9 = none) :
    select_format enc nbits mask = ⟨enc, nbits, none⟩ := by
  simp only [select_format, findTo_eq _ (findFrom_le nbits), h]

theorem select_format_of_outer_some (enc : SoxEnc) (nbits : Nat)
    (mask : AlsaFmt → Bool) (c : Nat)
    (h : outerLoop mask enc 12 (findFrom nbits) 9 = some c) :
    select_format enc nbits mask = ⟨(fmtAt c).enc, (fmtAt c).bits, some c⟩ := by
  simp only [select_format, findTo_eq _ (findFrom_le nbits), h]

/-- C1: for every requested (bit-depth, encoding) pair and every capability
mask, `select_format` either succeeds and returns a catalog index whose
format's mask bit is set, or, when no catalog entry's mask bit is set
anywhere in the catalog, fails leaving the caller's requested encoding,
bit depth and format output variable unmodified (modelled by the result
record keeping the input values, with `format = none` standing for the
untouched output variable). -/
theorem C1_select_format (enc : SoxEnc) (nbits : Nat) (mask : AlsaFmt → Bool) :
    (∀ c, (select_format enc nbits mask).format = some c →
       c < 9 ∧ mask (fmtAt c).alsa_fmt = true) ∧
    ((∀ i, i < 9 → mask (fmtAt i).alsa_fmt = false) →
       select_format enc nbits mask = ⟨enc, nbits, none⟩) := by
  constructor
  · intro c h
    cases houter : outerLoop mask enc 12 (findFrom nbits) 9 with
    | none =>
      rw [select_format_of_outer_none enc nbits mask houter] at h
      simp at h
    | some d =>
      rw [select_format_of_outer_some enc nbits mask d houter] at h
      simp only [SelectResult.format] at h
      rw [Option.some_inj] at h
      subst h
      exact outerLoop_some mask enc 12 (findFrom nbits) 9 d (findFrom_le nbits)
        (le_refl _) houter
  · intro hmask
    exact select_format_of_outer_none enc nbits mask
      (outerLoop_none_of_unsupported mask enc hmask 12 _ 9 (findFrom_le nbits)
        (le_refl _))

theorem C1_select_format_witness :
    (select_format .sign2 16 (fun f => f == .u16)).format = some 3 ∧
    (3 < 9 ∧ (fun f => f == AlsaFmt.u16) (fmtAt 3).alsa_fmt = true) ∧
    select_format .sign2 16 (fun _ => false) =
      ⟨SoxEnc.sign2, 16, none⟩ :=
  ⟨by decide,
   (C1_select_format .sign2 16 (fun f => f == .u16)).1 3 (by decide),
   (C1_select_format .sign2 16 (fun _ => false)).2 (by decide)⟩

/-- C3: whenever at least one catalog entry at or above the requested bit
depth (i.e. at an index in `[findFrom nbits, 9)`) has its mask bit set,
`select_format` chooses an entry from that range — the first
exact-encoding match if one exists — and never descends to a lower
bit-depth group. -/
theorem C3_select_format (enc : SoxEnc) (nbits : Nat) (mask : AlsaFmt → Bool)
    (hsup : ∃ i, findFrom nbits ≤ i ∧ i < 9 ∧ mask (fmtAt i).alsa_fmt = true) :
    ∃ c, (select_format enc nbits mask).format = some c ∧
      findFrom nbits ≤ c ∧ c < 9 ∧ mask (fmtAt c).alsa_fmt = true ∧
      (∀ j0, findFrom nbits ≤ j0 → j0 < 9 →
        mask (fmtAt j0).alsa_fmt = true → (fmtAt j0).enc = enc →
        (∀ j, findFrom nbits ≤ j → j < j0 →
          ¬(mask (fmtAt j).alsa_fmt = true ∧ (fmtAt j).enc = enc)) →
        c = j0) := by
  obtain ⟨c, hc⟩ := scanGroup_finds mask enc 10 (findFrom nbits) 9 none
    (by have := findFrom_le nbits; omega) hsup
  have houter : outerLoop mask enc 12 (findFrom nbits) 9 = some c :=
    outerLoop_of_scan_some mask enc 11 (findFrom nbits) 9 c (by omega) hc
  have hbounds := scanGroup_some mask enc 10 (findFrom nbits) 9 none c hc
  rcases hbounds with h1 | ⟨h1, h2, h3⟩
  · simp at h1
  · refine ⟨c, ?_, h1, h2, h3, ?_⟩
    · rw [select_format_of_outer_some enc nbits mask c houter]
    · intro j0 hj1 hj2 hj3 hj4 hmin
      have := scanGroup_first_exact mask enc 10 (findFrom nbits) 9 none j0
        (by have := findFrom_le nbits; omega) hj1 hj2 hj3 hj4 hmin
      rw [this] at hc
      exact (Option.some_inj.mp hc).symm

theorem C3_select_format_witness :
    (∃ c, (select_format .sign2 16
        (fun f => f == .s8 || f == .u8 || f == .u16)).format = some c ∧
      findFrom 16 ≤ c ∧ c < 9 ∧
      (fun f => f == AlsaFmt.s8 || f == AlsaFmt.u8 || f == AlsaFmt.u16)
        (fmtAt c).alsa_fmt = true ∧
      (∀ j0, findFrom 16 ≤ j0 → j0 < 9 →
        (fun f => f == AlsaFmt.s8 || f == AlsaFmt.u8 || f == AlsaFmt.u16)
          (fmtAt j0).alsa_fmt = true → (fmtAt j0).enc = .sign2 →
        (∀ j, findFrom 16 ≤ j → j < j0 →
          ¬((fun f => f == AlsaFmt.s8 || f == AlsaFmt.u8 || f == AlsaFmt.u16)
              (fmtAt j).alsa_fmt = true ∧ (fmtAt j).enc = .sign2)) →
        c = j0)) ∧
    (select_format .sign2 16
      (fun f => f == .s8 || f == .u8 || f == .u16)).format = some 3 ∧
    (fmtAt 3).alsa_fmt = AlsaFmt.u16 ∧ (fmtAt 3).bits = 16 ∧
    (fmtAt 3).enc = SoxEnc.unsigned :=
  ⟨C3_select_format .sign2 16 (fun f => f == .s8 || f == .u8 || f == .u16)
     ⟨3, by decide, by decide, by decide⟩,
   by decide, by decide, by decide, by decide⟩


/-! ## Sample codec (`read_`/`write_` switch arms, alsa.c lines 280-340 and
354-413)

The per-sample conversions between the canonical 32-bit fixed-point
`sox_sample_t` and the nine device layouts.  The `SOX_..._TO_SAMPLE` and
`SOX_SAMPLE_TO_...` macros live in the host library's `sox.h`, which is
not part of this repository, so they are modelled from the spec (§4.4):
decoding widens device samples to canonical precision with sign/zero
extension, encoding narrows canonical samples to the device width with
saturating clip counting.  Memory is modelled as lists of bytes
(`Nat < 256`) together with an explicit host byte order, so that the
native multi-byte loads/stores of the 2- and 4-byte layouts are
host-order dependent while the 3-byte packed layout's explicit per-byte
arithmetic is not. -/

/-- Host byte order for native multi-byte loads and stores. -/
inductive Endian
  | little | big
deriving DecidableEq, Fintype

/-- Two's-complement reinterpretation of a `b`-bit unsigned value as a
signed integer. -/
def toSigned (b : Nat) (v : Nat) : Int :=
  if v < 2^(b-1) then (v : Int) else (v : Int) - 2^b

/-- Low `b` bits of an integer, as the unsigned value a C cast to a
`b`-bit unsigned type produces. -/
def toUnsigned (b : Nat) (x : Int) : Nat := (x % (2^b : Nat)).toNat

/-- Little-endian byte decomposition of a value into `n` bytes. -/
def bytesLE : Nat → Nat → List Nat
  | 0, _ => []
  | n+1, v => v % 256 :: bytesLE n (v / 256)

/-- Reassemble a little-endian byte list into a value. -/
def fromBytesLE : List Nat → Nat
  | [] => 0
  | b :: bs => b + 256 * fromBytesLE bs

/-- Native in-memory store of an `n`-byte unsigned value, as done by the
C assignments through `int16_t*`/`int32_t*` pointers. -/
def storeNative (e : Endian) (n v : Nat) : List Nat :=
  match e with
  | .little => bytesLE n v
  | .big => (bytesLE n v).reverse

/-- Native in-memory load of an unsigned value, as done by the C reads
through `int16_t*`/`int32_t*` pointers. -/
def loadNative (e : Endian) (bs : List Nat) : Nat :=
  match e with
  | .little => fromBytesLE bs
  | .big => fromBytesLE bs.reverse

/-- Byte swap of a 16-bit value (`lsx_swapw`). -/
def swapw (v : Nat) : Nat := (v % 256) * 256 + (v / 256) % 256

/-- Modelled from the spec: the `SOX_SAMPLE_TO_SIGNED_<b>BIT` macro of the
host library's `sox.h` (not in this repository).  Narrows a canonical
sample to a `b`-bit signed value by rounding at half of the dropped
precision, saturating to the layout's extreme representable value and
counting a clip when the rounded value would overflow.  At `b = 32` the
canonical representation is already 32-bit signed and the conversion is
the identity.  Returns the narrowed value and the clip increment. -/
def sampleToSigned (b : Nat) (x : Int) : Int × Nat :=
  if b = 32 then (x, 0)
  else if x > 2^31 - 1 - 2^(31-b) then (2^(b-1) - 1, 1)
  else ((x + 2^(31-b)) / 2^(32-b), 0)

/-- Modelled from the spec: the `SOX_SAMPLE_TO_UNSIGNED_<b>BIT` macro of
`sox.h` (not in this repository): the signed narrowing shifted into
offset-binary (excess `2^(b-1)`) representation. -/
def sampleToUnsigned (b : Nat) (x : Int) : Nat × Nat :=
  let v := sampleToSigned b x
  (toUnsigned b (v.1 + 2^(b-1)), v.2)

/-- Modelled from the spec: the `SOX_SIGNED_<b>BIT_TO_SAMPLE` macro of
`sox.h` (not in this repository): widens a `b`-bit signed device value to
canonical precision by sign-extending shift. -/
def signedToSample (b : Nat) (d : Int) : Int := d * 2^(32-b)

/-- Modelled from the spec: the `SOX_UNSIGNED_<b>BIT_TO_SAMPLE` macro of
`sox.h` (not in this repository): widens a `b`-bit offset-binary device
value to canonical precision. -/
def unsignedToSample (b : Nat) (u : Nat) : Int := ((u : Int) - 2^(b-1)) * 2^(32-b)

/-- Occupied bytes per sample of each layout (the `bytes` column of the
catalog; `other` stands for formats outside the catalog). -/
def fmtWidth : AlsaFmt → Nat
  | .s8 => 1 | .u8 => 1 | .s16 => 2 | .u16 => 2 | .s24 => 4
  | .u24 => 4 | .s24_3le => 3 | .s32 => 4 | .u32 => 4 | .other => 0

/-- One sample of the encode direction (`write_`'s switch, lines
354-413): canonical sample to device bytes plus clip increment.  The
2- and 4-byte layouts store through typed pointers, hence native byte
order; `rev` is `ft->encoding.reverse_bytes`, honoured only by the 16-bit
arms; the `S24_3LE` arm (lines 386-394) emits the three bytes at fixed
little-endian positions by explicit shifts and masks. -/
def encodeSample (fmt : AlsaFmt) (e : Endian) (rev : Bool) (x : Int) :
    List Nat × Nat :=
  match fmt with
  | .s8 =>
    let v := sampleToSigned 8 x
    (storeNative e 1 (toUnsigned 8 v.1), v.2)
  | .u8 =>
    let u := sampleToUnsigned 8 x
    (storeNative e 1 u.1, u.2)
  | .s16 =>
    let v := sampleToSigned 16 x
    let u := toUnsigned 16 v.1
    (storeNative e 2 (if rev then swapw u else u), v.2)
  | .u16 =>
    let u := sampleToUnsigned 16 x
    (storeNative e 2 (if rev then swapw u.1 else u.1), u.2)
  | .s24 =>
    let v := sampleToSigned 24 x
    (storeNative e 4 (toUnsigned 32 v.1), v.2)
  | .u24 =>
    let u := sampleToUnsigned 24 x
    (storeNative e 4 u.1, u.2)
  | .s24_3le =>
    let v := sampleToSigned 24 x
    let t := toUnsigned 32 v.1
    ([t % 256, t / 256 % 256, t / 65536 % 256], v.2)
  | .s32 =>
    let v := sampleToSigned 32 x
    (storeNative e 4 (toUnsigned 32 v.1), v.2)
  | .u32 =>
    let u := sampleToUnsigned 32 x
    (storeNative e 4 u.1, u.2)
  | .other => ([], 0)

/-- One sample of the decode direction (`read_`'s switch, lines 280-340):
device bytes to canonical sample.  The `S24_3LE` arm (lines 312-321)
assembles `b0 | b1 << 8 | b2 << 16` from fixed byte positions and widens
it as a 24-bit signed value; all other multi-byte arms load through typed
pointers in native byte order. -/
def decodeSample (fmt : AlsaFmt) (e : Endian) (rev : Bool) (bs : List Nat) :
    Int :=
  match fmt with
  | .s8 => signedToSample 8 (toSigned 8 (loadNative e bs))
  | .u8 => unsignedToSample 8 (loadNative e bs)
  | .s16 =>
    let u := loadNative e bs
    signedToSample 16 (toSigned 16 (if rev then swapw u else u))
  | .u16 =>
    let u := loadNative e bs
    unsignedToSample 16 (if rev then swapw u else u)
  | .s24 => signedToSample 24 (toSigned 32 (loadNative e bs))
  | .u24 => unsignedToSample 24 (loadNative e bs)
  | .s24_3le =>
    let t := bs.getD 0 0 + 256 * bs.getD 1 0 + 65536 * bs.getD 2 0
    signedToSample 24 (toSigned 24 t)
  | .s32 => signedToSample 32 (toSigned 32 (loadNative e bs))
  | .u32 => unsignedToSample 32 (loadNative e bs)
  | .other => 0

/-- Bit depth of each catalog layout (the `bits` column of the catalog). -/
def fmtBits : AlsaFmt → Nat
  | .s8 => 8 | .u8 => 8 | .s16 => 16 | .u16 => 16 | .s24 => 24
  | .u24 => 24 | .s24_3le => 24 | .s32 => 32 | .u32 => 32 | .other => 0

/-- A canonical sample is within a layout's representable range when it is
one of the exactly representable device values widened to canonical
scale: a multiple of `2^(32-bits)` inside the canonical 32-bit range. -/
def InRange (fmt : AlsaFmt) (x : Int) : Prop :=
  ∃ k : Int, x = k * 2^(32 - fmtBits fmt) ∧
    -(2^(fmtBits fmt - 1)) ≤ k ∧ k < 2^(fmtBits fmt - 1)


theorem fromBytesLE_bytesLE : ∀ (n v : Nat), v < 2^(8*n) →
    fromBytesLE (bytesLE n v) = v := by
  intro n
  induction n with
  | zero => intro v hv; interval_cases v; rfl
  | succ m ih =>
    intro v hv
    simp only [bytesLE, fromBytesLE]
    have h2 : (2:Nat)^(8*(m+1)) = 2^(8*m) * 256 := by
      rw [Nat.mul_succ, pow_add]
      norm_num
    rw [ih (v / 256) (by omega)]
    omega

theorem loadNative_storeNative (e : Endian) (n v : Nat) (hv : v < 2^(8*n)) :
    loadNative e (storeNative e n v) = v := by
  cases e <;> simp only [loadNative, storeNative, List.reverse_reverse] <;>
    exact fromBytesLE_bytesLE n v hv

theorem swapw_lt (v : Nat) : swapw v < 65536 := by
  simp only [swapw]; omega

theorem swapw_swapw (v : Nat) (hv : v < 65536) : swapw (swapw v) = v := by
  simp only [swapw]
  have h1 : (v % 256 * 256 + v / 256 % 256) % 256 = v / 256 % 256 := by omega
  have h2 : (v % 256 * 256 + v / 256 % 256) / 256 = v % 256 := by omega
  rw [h1, h2]
  omega

theorem toUnsigned_lt (b : Nat) (x : Int) : toUnsigned b x < 2^b := by
  simp only [toUnsigned]
  have h1 : (0:Int) < (2^b : Nat) := by positivity
  have h2 := Int.emod_lt_of_pos x h1
  have h3 := Int.emod_nonneg x (by omega : ((2^b : Nat) : Int) ≠ 0)
  omega

theorem rt_s8 (e : Endian) (rev : Bool) (x : Int) (hx : InRange .s8 x) :
    decodeSample .s8 e rev (encodeSample .s8 e rev x).1 = x := by
  obtain ⟨k, rfl, hk1, hk2⟩ := hx
  simp only [fmtBits] at hk1 hk2
  norm_num at hk1 hk2
  simp only [encodeSample, decodeSample, sampleToSigned, signedToSample, fmtBits]
  norm_num
  rw [if_neg (by omega)]
  have hb : toUnsigned 8 ((k * 16777216 + 8388608) / 16777216) < 2^(8*1) := by
    have := toUnsigned_lt 8 ((k * 16777216 + 8388608) / 16777216)
    norm_num at this ⊢
    exact this
  rw [loadNative_storeNative e 1 _ hb]
  simp only [toUnsigned, toSigned]
  have hq : (k * 16777216 + 8388608) / 16777216 = k := by omega
  rw [hq]
  split_ifs <;> omega


theorem rt_u8 (e : Endian) (rev : Bool) (x : Int) (hx : InRange .u8 x) :
    decodeSample .u8 e rev (encodeSample .u8 e rev x).1 = x := by
  obtain ⟨k, rfl, hk1, hk2⟩ := hx
  simp only [fmtBits] at hk1 hk2
  norm_num at hk1 hk2
  simp only [encodeSample, decodeSample, sampleToUnsigned, sampleToSigned,
    unsignedToSample, fmtBits]
  norm_num
  rw [if_neg (by omega)]
  have hq : (k * 16777216 + 8388608) / 16777216 = k := by omega
  rw [hq]
  have hb : toUnsigned 8 (k + 128) < 2^(8*1) := by
    have := toUnsigned_lt 8 (k + 128)
    norm_num at this ⊢
    omega
  rw [loadNative_storeNative e 1 _ hb]
  simp only [toUnsigned]
  omega

theorem rt_s16 (e : Endian) (rev : Bool) (x : Int) (hx : InRange .s16 x) :
    decodeSample .s16 e rev (encodeSample .s16 e rev x).1 = x := by
  obtain ⟨k, rfl, hk1, hk2⟩ := hx
  simp only [fmtBits] at hk1 hk2
  norm_num at hk1 hk2
  cases rev <;>
  · simp only [encodeSample, decodeSample, sampleToSigned, signedToSample, fmtBits]
    norm_num
    rw [if_neg (by omega)]
    have hq : (k * 65536 + 32768) / 65536 = k := by omega
    rw [hq]
    first
    | (rw [loadNative_storeNative e 2 _ (by
          have := toUnsigned_lt 16 k
          norm_num at this ⊢
          omega)]
       simp only [toUnsigned, toSigned]
       split_ifs <;> omega)
    | (rw [loadNative_storeNative e 2 _ (by
          have := swapw_lt (toUnsigned 16 k)
          norm_num
          omega),
        swapw_swapw _ (by
          have := toUnsigned_lt 16 k
          norm_num at this ⊢
          omega)]
       simp only [toUnsigned, toSigned]
       split_ifs <;> omega)

theorem rt_u16 (e : Endian) (rev : Bool) (x : Int) (hx : InRange .u16 x) :
    decodeSample .u16 e rev (encodeSample .u16 e rev x).1 = x := by
  obtain ⟨k, rfl, hk1, hk2⟩ := hx
  simp only [fmtBits] at hk1 hk2
  norm_num at hk1 hk2
  cases rev <;>
  · simp only [encodeSample, decodeSample, sampleToUnsigned, sampleToSigned,
      unsignedToSample, fmtBits]
    norm_num
    rw [if_neg (by omega)]
    have hq : (k * 65536 + 32768) / 65536 = k := by omega
    rw [hq]
    first
    | (rw [loadNative_storeNative e 2 _ (by
          have := toUnsigned_lt 16 (k + 32768)
          norm_num at this ⊢
          omega)]
       simp only [toUnsigned]
       omega)
    | (rw [loadNative_storeNative e 2 _ (by
          have := swapw_lt (toUnsigned 16 (k + 32768))
          norm_num
          omega),
        swapw_swapw _ (by
          have := toUnsigned_lt 16 (k + 32768)
          norm_num at this ⊢
          omega)]
       simp only [toUnsigned]
       omega)

theorem rt_s24 (e : Endian) (rev : Bool) (x : Int) (hx : InRange .s24 x) :
    decodeSample .s24 e rev (encodeSample .s24 e rev x).1 = x := by
  obtain ⟨k, rfl, hk1, hk2⟩ := hx
  simp only [fmtBits] at hk1 hk2
  norm_num at hk1 hk2
  simp only [encodeSample, decodeSample, sampleToSigned, signedToSample, fmtBits]
  norm_num
  rw [if_neg (by omega)]
  have hq : (k * 256 + 128) / 256 = k := by omega
  rw [hq]
  have hb : toUnsigned 32 k < 2^(8*4) := by
    have := toUnsigned_lt 32 k
    norm_num at this ⊢
    omega
  rw [loadNative_storeNative e 4 _ hb]
  simp only [toUnsigned, toSigned]
  split_ifs <;> omega

theorem rt_u24 (e : Endian) (rev : Bool) (x : Int) (hx : InRange .u24 x) :
    decodeSample .u24 e rev (encodeSample .u24 e rev x).1 = x := by
  obtain ⟨k, rfl, hk1, hk2⟩ := hx
  simp only [fmtBits] at hk1 hk2
  norm_num at hk1 hk2
  simp only [encodeSample, decodeSample, sampleToUnsigned, sampleToSigned,
    unsignedToSample, fmtBits]
  norm_num
  rw [if_neg (by omega)]
  have hq : (k * 256 + 128) / 256 = k := by omega
  rw [hq]
  have hb : toUnsigned 24 (k + 8388608) < 2^(8*4) := by
    have := toUnsigned_lt 24 (k + 8388608)
    norm_num at this ⊢
    omega
  rw [loadNative_storeNative e 4 _ hb]
  simp only [toUnsigned]
  omega

theorem rt_s24_3le (e : Endian) (rev : Bool) (x : Int) (hx : InRange .s24_3le x) :
    decodeSample .s24_3le e rev (encodeSample .s24_3le e rev x).1 = x := by
  obtain ⟨k, rfl, hk1, hk2⟩ := hx
  simp only [fmtBits] at hk1 hk2
  norm_num at hk1 hk2
  simp only [encodeSample, decodeSample, sampleToSigned, signedToSample, fmtBits]
  norm_num
  rw [if_neg (by omega)]
  have hq : (k * 256 + 128) / 256 = k := by omega
  rw [hq]
  simp only [toUnsigned, toSigned, List.getD_cons_zero, List.getD_cons_succ]
  split_ifs <;> omega

theorem rt_s32 (e : Endian) (rev : Bool) (x : Int) (hx : InRange .s32 x) :
    decodeSample .s32 e rev (encodeSample .s32 e rev x).1 = x := by
  obtain ⟨k, rfl, hk1, hk2⟩ := hx
  simp only [fmtBits] at hk1 hk2
  norm_num at hk1 hk2
  simp only [encodeSample, decodeSample, sampleToSigned, signedToSample, fmtBits]
  norm_num
  have hb : toUnsigned 32 k < 2^(8*4) := by
    have := toUnsigned_lt 32 k
    norm_num at this ⊢
    omega
  rw [loadNative_storeNative e 4 _ hb]
  simp only [toUnsigned, toSigned]
  split_ifs <;> omega

theorem rt_u32 (e : Endian) (rev : Bool) (x : Int) (hx : InRange .u32 x) :
    decodeSample .u32 e rev (encodeSample .u32 e rev x).1 = x := by
  obtain ⟨k, rfl, hk1, hk2⟩ := hx
  simp only [fmtBits] at hk1 hk2
  norm_num at hk1 hk2
  simp only [encodeSample, decodeSample, sampleToUnsigned, sampleToSigned,
    unsignedToSample, fmtBits]
  norm_num
  have hb : toUnsigned 32 (k + 2147483648) < 2^(8*4) := by
    have := toUnsigned_lt 32 (k + 2147483648)
    norm_num at this ⊢
    omega
  rw [loadNative_storeNative e 4 _ hb]
  simp only [toUnsigned]
  omega


/-- C2: for each of the nine catalog layouts and every canonical sample
within the layout's representable range (an exactly representable device
value widened to canonical scale), decoding the encoding of the sample
reproduces it, on either host byte order and with or without 16-bit byte
reversal; and the signed 24-bit packed 3-byte layout's encoder and
decoder work at fixed little-endian byte positions, independent of host
byte order (and of the 16-bit byte-reversal flag, which does not apply to
it). -/
theorem C2_codec_roundtrip :
    (∀ fmt : AlsaFmt, fmt ≠ .other → ∀ (e : Endian) (rev : Bool) (x : Int),
       InRange fmt x →
       decodeSample fmt e rev (encodeSample fmt e rev x).1 = x) ∧
    (∀ (e eh : Endian) (rev revh : Bool) (bs : List Nat),
       decodeSample .s24_3le e rev bs = decodeSample .s24_3le eh revh bs) ∧
    (∀ (e eh : Endian) (rev revh : Bool) (x : Int),
       encodeSample .s24_3le e rev x = encodeSample .s24_3le eh revh x) := by
  refine ⟨?_, ?_, ?_⟩
  · intro fmt hne e rev x hx
    cases fmt with
    | s8 => exact rt_s8 e rev x hx
    | u8 => exact rt_u8 e rev x hx
    | s16 => exact rt_s16 e rev x hx
    | u16 => exact rt_u16 e rev x hx
    | s24 => exact rt_s24 e rev x hx
    | u24 => exact rt_u24 e rev x hx
    | s24_3le => exact rt_s24_3le e rev x hx
    | s32 => exact rt_s32 e rev x hx
    | u32 => exact rt_u32 e rev x hx
    | other => exact absurd rfl hne
  · intro e eh rev revh bs; rfl
  · intro e eh rev revh x; rfl

theorem C2_codec_roundtrip_witness :
    InRange .s24_3le (-256) ∧
    decodeSample .s24_3le .big true
      (encodeSample .s24_3le .big true (-256)).1 = -256 ∧
    decodeSample .s16 .big true (encodeSample .s16 .big true 65536).1 = 65536 ∧
    (encodeSample .s24_3le .big true (-256)).1 = [255, 255, 255] :=
  ⟨⟨-1, by decide, by decide, by decide⟩,
   C2_codec_roundtrip.1 .s24_3le (by decide) .big true (-256)
     ⟨-1, by decide, by decide, by decide⟩,
   C2_codec_roundtrip.1 .s16 (by decide) .big true 65536
     ⟨1, by decide, by decide, by decide⟩,
   by decide⟩


/-! ## Blocking read (`read_`, alsa.c lines 261-344)

`read_` clamps the requested length to the negotiated buffer length in
samples (line 267), decodes exactly that many samples from the conversion
buffer through the per-sample codec, and returns the clamped length; the
defensive `default:` arm returns 0.  The static first-call priming and
the semaphore waits of lines 268-278/341 move data between threads but do
not affect the decoded contents or the returned count, which is what this
model captures. -/

/-- Decode `n` samples from the conversion buffer, consuming the layout's
byte width per sample. -/
def decodeN (fmt : AlsaFmt) (e : Endian) (rev : Bool) : List Nat → Nat → List Int
  | _, 0 => []
  | bs, n+1 =>
    decodeSample fmt e rev (bs.take (fmtWidth fmt)) ::
      decodeN fmt e rev (bs.drop (fmtWidth fmt)) n

/-- Conversion/return behaviour of `read_`: the decoded samples and the
returned count. -/
def read_ (fmt : AlsaFmt) (e : Endian) (rev : Bool) (buf_len : Nat)
    (conv : List Nat) (len : Nat) : List Int × Nat :=
  match fmt with
  | .other => ([], 0)
  | _ => (decodeN fmt e rev conv (min len buf_len), min len buf_len)

theorem decodeN_length (fmt : AlsaFmt) (e : Endian) (rev : Bool) :
    ∀ (n : Nat) (bs : List Nat), (decodeN fmt e rev bs n).length = n := by
  intro n
  induction n with
  | zero => intro bs; rfl
  | succ m ih => intro bs; simp [decodeN, ih]

/-- C10: every call of the blocking read returns exactly
`min(len, buf_len)` samples and decodes only that many from the
conversion buffer — a caller requesting more than one buffer's worth
receives a short count rather than multiple blocks — except the defensive
invalid-format branch, which returns 0. -/
theorem C10_read (e : Endian) (rev : Bool) (buf_len len : Nat)
    (conv : List Nat) :
    (∀ fmt : AlsaFmt, fmt ≠ .other →
       read_ fmt e rev buf_len conv len
         = (decodeN fmt e rev conv (min len buf_len), min len buf_len) ∧
       (read_ fmt e rev buf_len conv len).1.length = min len buf_len ∧
       (buf_len < len → (read_ fmt e rev buf_len conv len).2 = buf_len ∧
          (read_ fmt e rev buf_len conv len).2 < len)) ∧
    read_ .other e rev buf_len conv len = ([], 0) := by
  constructor
  · intro fmt hne
    cases fmt <;>
      first
      | exact absurd rfl hne
      | exact ⟨rfl, decodeN_length _ _ _ _ _,
          fun h => ⟨by simp [read_]; omega, by simp [read_]; omega⟩⟩
  · rfl

theorem C10_read_witness :
    read_ .s8 .little false 2 [1, 2, 3] 5
      = (decodeN .s8 .little false [1, 2, 3] (min 5 2), min 5 2) ∧
    (read_ .s8 .little false 2 [1, 2, 3] 5).2 = 2 ∧
    (read_ .s8 .little false 2 [1, 2, 3] 5).2 < 5 ∧
    (read_ .s8 .little false 2 [1, 2, 3] 5).1
      = [16777216, 33554432] ∧
    read_ .other .little false 2 [1, 2, 3] 5 = ([], 0) :=
  ⟨((C10_read .little false 2 5 [1, 2, 3]).1 .s8 (by decide)).1,
   (((C10_read .little false 2 5 [1, 2, 3]).1 .s8 (by decide)).2.2
      (by decide)).1,
   (((C10_read .little false 2 5 [1, 2, 3]).1 .s8 (by decide)).2.2
      (by decide)).2,
   by decide,
   (C10_read .little false 2 5 [1, 2, 3]).2⟩


/-! ## Playback pipeline (`write_` lines 346-420, `write_thread` lines
154-180, `recover` lines 115-128)

The application's `write_` call encodes one block into the conversion
buffer `p->buf`, publishes the block length, waits on `write_sem`, copies
the conversion buffer into the worker's transfer buffer `p->thread_buf`
(the `memcpy` on line 416), and posts `rwrite_sem`.  The worker thread
loops: drive hardware writes directly out of `p->thread_buf`, post
`write_sem`, wait on `rwrite_sem`; it performs no buffer copy.  Buffers
are byte lists; semaphore operations appear as events so the placement of
the copy relative to the handshake is visible. -/

/-- Encode a block of canonical samples: concatenated device bytes and
total clip count (the per-arm `while (i--)` loops of `write_`). -/
def encodeN (fmt : AlsaFmt) (e : Endian) (rev : Bool) : List Int → List Nat × Nat
  | [] => ([], 0)
  | x :: xs =>
    let h := encodeSample fmt e rev x
    let t := encodeN fmt e rev xs
    (h.1 ++ t.1, h.2 + t.2)

/-- Mutable per-session state touched by the playback pipeline. -/
structure WState where
  conv : List Nat
  transfer : List Nat
  write_len : Nat
  clips : Nat
deriving DecidableEq

/-- Observable actions of the playback pipeline, in program order. -/
inductive PipeEv
  | encodeBlock (n : Nat)
  | setWriteLen (n : Nat)
  | waitWriteSem
  | copyConvToTransfer
  | postRWriteSem
  | postWriteSem
  | waitRWriteSem
  | hwWriteFromTransfer (frames : Nat)
  | threadExit
deriving DecidableEq

/-- One outer-loop iteration of the application's `write_` call (lines
352-418): encode the block into the conversion buffer, set `write_len`,
wait for the buffer-free semaphore, copy the conversion buffer into the
transfer buffer, post the data-ready semaphore. -/
def writeBlock (fmt : AlsaFmt) (e : Endian) (rev : Bool) (st : WState)
    (samples : List Int) : WState × List PipeEv :=
  let enc := encodeN fmt e rev samples
  let conv2 := enc.1 ++ st.conv.drop enc.1.length
  (⟨conv2, conv2 ++ st.transfer.drop conv2.length, samples.length,
    st.clips + enc.2⟩,
   [.encodeBlock samples.length, .setWriteLen samples.length, .waitWriteSem,
    .copyConvToTransfer, .postRWriteSem])

/-- One loop iteration of `write_thread` (lines 164-177) in the
error-free case: hardware writes served directly from the transfer
buffer, then post `write_sem` and wait on `rwrite_sem`.  The session
state is not modified and in particular no buffer copy occurs. -/
def writeThreadIter (st : WState) (channels : Nat) : WState × List PipeEv :=
  (st, [.hwWriteFromTransfer (st.write_len / channels), .postWriteSem,
        .waitRWriteSem])

/-- The outer `for (done = 0; done < len; done += n)` loop of `write_`,
processing at most `buf_len` samples per block.  The fuel argument is
instantiated with the sample count, which bounds the iteration count
whenever `buf_len > 0` (with `buf_len = 0` and a nonempty input the C
loop never advances). -/
def writeLoop (fmt : AlsaFmt) (e : Endian) (rev : Bool) (buf_len : Nat) :
    Nat → WState → List Int → WState × List PipeEv
  | 0, st, _ => (st, [])
  | _+1, st, [] => (st, [])
  | fuel+1, st, x :: xs =>
    let blk := (x :: xs).take buf_len
    let step := writeBlock fmt e rev st blk
    let rest := writeLoop fmt e rev buf_len fuel step.1 ((x :: xs).drop buf_len)
    (rest.1, step.2 ++ rest.2)

/-- A whole `write_` call: final state, event trace, and the value the
call returns, which is the full requested length `len` (line 419) no
matter what happens on the device side. -/
def write_run (fmt : AlsaFmt) (e : Endian) (rev : Bool) (buf_len : Nat)
    (st : WState) (samples : List Int) : WState × List PipeEv × Nat :=
  let r := writeLoop fmt e rev buf_len samples.length st samples
  (r.1, r.2, samples.length)

/-- Error codes used by the recovery path. -/
def EPIPE : Int := 32

def EAGAIN : Int := 11

def ESTRPIPE : Int := 86

def EACCES : Int := 13

/-- The `recover` function (lines 115-128).  `resumeRes` is the first
non-`-EAGAIN` result of the `snd_pcm_resume` polling loop, `recoverRes`
the result of `snd_pcm_recover`.  Returns the final error value and
whether `lsx_fail_errno(ft, SOX_EPERM, ...)` recorded a permission-class
error on the format handle. -/
def recover (err resumeRes recoverRes : Int) : Int × Bool :=
  let e1 := if err = -ESTRPIPE then resumeRes else err
  if e1 < 0 then (recoverRes, decide (recoverRes < 0))
  else (e1, false)

/-- The worker's reaction to a failed hardware write (lines 172-173):
`if (actual < 0 && recover(ft, p->pcm, (int)actual) < 0) return 0;`.
`true` means the worker thread terminates. -/
def writeThreadErrStep (actual resumeRes recoverRes : Int) : Bool :=
  decide (actual < 0) && decide ((recover actual resumeRes recoverRes).1 < 0)


/-! ## Claims C7 and C8: where the copy happens, and recovery failure -/

/-- C7 counterexample: in the code the `memcpy` into the transfer buffer
is on line 416, inside the application's `write_` call, and
`write_thread` contains no copy at all — refuting the claim that the copy
is performed inside the worker and that the application's write call
leaves the transfer buffer unchanged.  Concretely, one `write_` block
iteration rewrites the transfer buffer `[9, 9]` to `[128, 0]`. -/
theorem C7_counterexample :
    (writeBlock .u8 .little false ⟨[0, 0], [9, 9], 0, 0⟩ [0]).1.transfer
        = [128, 0] ∧
    (writeBlock .u8 .little false ⟨[0, 0], [9, 9], 0, 0⟩ [0]).1.transfer
        ≠ [9, 9] ∧
    PipeEv.copyConvToTransfer
        ∈ (writeBlock .u8 .little false ⟨[0, 0], [9, 9], 0, 0⟩ [0]).2 ∧
    (writeThreadIter ⟨[0, 0], [9, 9], 0, 0⟩ 1).1
        = (⟨[0, 0], [9, 9], 0, 0⟩ : WState) ∧
    PipeEv.copyConvToTransfer
        ∉ (writeThreadIter ⟨[0, 0], [9, 9], 0, 0⟩ 1).2 := by decide

/-- C7 amended: the copy of the encoded block from the conversion buffer
into the transfer buffer is performed by the application's blocking
`write_` call, between its wait on the buffer-free semaphore and its
data-to-send signal; the worker thread drives its hardware writes
directly out of the transfer buffer, modifies neither buffer and performs
no copy. -/
theorem C7_write_copy (fmt : AlsaFmt) (e : Endian) (rev : Bool)
    (st : WState) (samples : List Int) (channels : Nat) :
    (writeBlock fmt e rev st samples).1.transfer
      = (writeBlock fmt e rev st samples).1.conv
        ++ st.transfer.drop (writeBlock fmt e rev st samples).1.conv.length ∧
    (writeBlock fmt e rev st samples).2
      = [.encodeBlock samples.length, .setWriteLen samples.length,
         .waitWriteSem, .copyConvToTransfer, .postRWriteSem] ∧
    (writeThreadIter st channels).1 = st ∧
    PipeEv.copyConvToTransfer ∉ (writeThreadIter st channels).2 := by
  refine ⟨rfl, rfl, rfl, ?_⟩
  simp [writeThreadIter]

/-- C8 counterexample: a hardware-write failure (`-EPIPE`) whose
device-level recovery also fails (`-EACCES`) surfaces the
permission-class error and terminates the worker thread, but the
application's `write_` call still returns the full requested length — it
never returns a short count, refuting the claim. -/
theorem C8_counterexample :
    (recover (-EPIPE) 0 (-EACCES)).2 = true ∧
    writeThreadErrStep (-EPIPE) 0 (-EACCES) = true ∧
    (write_run .u8 .little false 2 ⟨[0, 0], [9, 9], 0, 0⟩
       [0, 0, 0, 0]).2.2 = 4 ∧
    ¬ (write_run .u8 .little false 2 ⟨[0, 0], [9, 9], 0, 0⟩
       [0, 0, 0, 0]).2.2 < 4 := by decide

/-- C8 amended: whenever device-level recovery after a failed blocking
hardware I/O call itself fails, the permission-class error is recorded on
the format handle and the worker thread's I/O loop terminates; the
application's `write_` call is unaffected by this and returns the full
requested length, not a short count. -/
theorem C8_recovery_failure (err resumeRes recoverRes : Int)
    (herr : err < 0)
    (hfail : (recover err resumeRes recoverRes).1 < 0) :
    (recover err resumeRes recoverRes).2 = true ∧
    writeThreadErrStep err resumeRes recoverRes = true ∧
    (∀ (fmt : AlsaFmt) (e : Endian) (rev : Bool) (buf_len : Nat)
       (st : WState) (samples : List Int),
       (write_run fmt e rev buf_len st samples).2.2 = samples.length) := by
  refine ⟨?_, ?_, fun _ _ _ _ _ _ => rfl⟩
  · simp only [recover] at hfail ⊢
    by_cases h2 : (if err = -ESTRPIPE then resumeRes else err) < 0
    · rw [if_pos h2] at hfail ⊢
      simpa using hfail
    · rw [if_neg h2] at hfail
      exact absurd hfail h2
  · simp only [writeThreadErrStep, Bool.and_eq_true, decide_eq_true_eq]
    exact ⟨herr, hfail⟩

theorem C8_recovery_failure_witness :
    (recover (-32) 0 (-13)).2 = true ∧
    writeThreadErrStep (-32) 0 (-13) = true ∧
    (write_run .u8 .little false 2 ⟨[0, 0], [9, 9], 0, 0⟩
       [0, 0, 0, 0]).2.2 = 4 :=
  ⟨(C8_recovery_failure (-32) 0 (-13) (by decide) (by decide)).1,
   (C8_recovery_failure (-32) 0 (-13) (by decide) (by decide)).2.1,
   (C8_recovery_failure (-32) 0 (-13) (by decide) (by decide)).2.2
     .u8 .little false 2 ⟨[0, 0], [9, 9], 0, 0⟩ [0, 0, 0, 0]⟩


/-! ## Device negotiation (`setup`, alsa.c lines 183-259)

The buffer-geometry arithmetic of lines 222-235 and the fail/commit
control flow around it.  The device's responses to the capability calls
(`*_near` negotiation, buffer-size bounds) are abstracted as a record of
response functions; the hardware calls issued by `setup` are collected in
a trace so that "returns failure without committing" is a statement about
the trace. -/

/-- Modelled from the spec ("clamp this to the device's reported
[min,max] buffer-size range"): the host library's `range_limit` utility
used on line 227 (not in this repository). -/
def rangeLimit (x lo hi : Nat) : Nat := min (max x lo) hi

/-- The target buffer size in frames exactly as line 223 computes it:
`sox_globals.bufsiz * 8 / formats[p->format].bytes / ft->signal.channels`
(left-associated C integer division). -/
def targetFrames (bufsiz bytes ch : Nat) : Nat := bufsiz * 8 / bytes / ch

/-- The same quantity as the spec words it: "(global default buffer byte
size × 8) ÷ (occupied bytes per sample × channel count)". -/
def specTargetFrames (bufsiz bytes ch : Nat) : Nat := bufsiz * 8 / (bytes * ch)

/-- Period before the `*_near` requests: clamped target divided by 8
(line 227). -/
def geomPeriod (bufsiz bytes ch lo hi : Nat) : Nat :=
  rangeLimit (targetFrames bufsiz bytes ch) lo hi / 8

/-- Buffer length before the `*_near` requests: re-derived as
`period * 8` (line 228). -/
def geomBuffer (bufsiz bytes ch lo hi : Nat) : Nat :=
  geomPeriod bufsiz bytes ch lo hi * 8

/-- Abstract device: capability mask, the values the device reports back
from the `*_near` negotiations, and its buffer-size bounds. -/
structure Device where
  mask : AlsaFmt → Bool
  rateNear : Nat → Nat
  channelsNear : Nat → Nat
  bufMin : Nat
  bufMax : Nat
  periodNear : Nat → Nat
  bufferNear : Nat → Nat

/-- Hardware calls issued by `setup`, in program order. -/
inductive HwCall
  | openDev
  | setFormat (i : Nat)
  | setRate (r : Nat)
  | setChannels (c : Nat)
  | setPeriodNear (p : Nat)
  | setBufferNear (b : Nat)
  | commitParams
  | prepareDev
deriving DecidableEq

/-- Fatal negotiation errors modelled here.  `noSupportedFormat` is the
`select_format` failure propagated by the `_()` wrapper, `bufferTooSmall`
the explicit "buffer too small" failure of lines 232-235. -/
inductive SetupErr
  | noSupportedFormat
  | bufferTooSmall
deriving DecidableEq

/-- The session fields `setup` fills in on success: chosen format index,
negotiated rate and channels, final period (frames), final buffer length
(samples, line 240) and byte size (line 241). -/
structure Session where
  format : Nat
  rate : Nat
  channels : Nat
  period : Nat
  buf_len : Nat
  bufsize : Nat
deriving DecidableEq

/-- `setup` (lines 183-259), restricted to format selection, geometry
negotiation and the fail/commit control flow.  The C code frees the
negotiation resources and returns `SOX_EOF` on either error path without
reaching `snd_pcm_hw_params` (commit) or `snd_pcm_prepare`. -/
def setup (dev : Device) (enc : SoxEnc) (nbits rate channels bufsiz : Nat) :
    Except SetupErr Session × List HwCall :=
  match (select_format enc nbits dev.mask).format with
  | none => (.error .noSupportedFormat, [.openDev])
  | some fmt =>
    let rate2 := dev.rateNear rate
    let ch := dev.channelsNear channels
    let period0 := geomPeriod bufsiz (fmtAt fmt).bytes ch dev.bufMin dev.bufMax
    let bl0 := period0 * 8
    let period := dev.periodNear period0
    let bl := dev.bufferNear bl0
    if period * 2 > bl then
      (.error .bufferTooSmall,
       [.openDev, .setFormat fmt, .setRate rate2, .setChannels ch,
        .setPeriodNear period0, .setBufferNear bl0])
    else
      (.ok ⟨fmt, rate2, ch, period, bl * ch, bl * ch * (fmtAt fmt).bytes⟩,
       [.openDev, .setFormat fmt, .setRate rate2, .setChannels ch,
        .setPeriodNear period0, .setBufferNear bl0, .commitParams,
        .prepareDev])

/-- C4: the target buffer size in frames equals
`(bufsiz × 8) ÷ (bytes-per-sample × channels)` (the code's
left-associated double division coincides with the spec's single
division by the product); the target is clamped into the device's
reported `[lo, hi]` range; period is the clamped value divided by 8 and
the buffer is re-derived as `period × 8`; and these are exactly the
values `setup` hands to the period-size-near and buffer-size-near
requests. -/
theorem C4_geometry (bufsiz bytes ch lo hi : Nat) (hlohi : lo ≤ hi) :
    targetFrames bufsiz bytes ch = specTargetFrames bufsiz bytes ch ∧
    lo ≤ rangeLimit (targetFrames bufsiz bytes ch) lo hi ∧
    rangeLimit (targetFrames bufsiz bytes ch) lo hi ≤ hi ∧
    geomPeriod bufsiz bytes ch lo hi
      = rangeLimit (specTargetFrames bufsiz bytes ch) lo hi / 8 ∧
    geomBuffer bufsiz bytes ch lo hi = geomPeriod bufsiz bytes ch lo hi * 8 ∧
    (∀ (dev : Device) (enc : SoxEnc) (nbits rate channels : Nat) (fmt : Nat),
      (select_format enc nbits dev.mask).format = some fmt →
      dev.bufMin = lo → dev.bufMax = hi →
      dev.channelsNear channels = ch → (fmtAt fmt).bytes = bytes →
      HwCall.setPeriodNear (geomPeriod bufsiz bytes ch lo hi)
          ∈ (setup dev enc nbits rate channels bufsiz).2 ∧
      HwCall.setBufferNear (geomBuffer bufsiz bytes ch lo hi)
          ∈ (setup dev enc nbits rate channels bufsiz).2) := by
  refine ⟨?_, ?_, ?_, ?_, rfl, ?_⟩
  · simp [targetFrames, specTargetFrames, Nat.div_div_eq_div_mul]
  · simp only [rangeLimit]
    omega
  · simp only [rangeLimit]
    omega
  · simp [geomPeriod, targetFrames, specTargetFrames, Nat.div_div_eq_div_mul]
  · intro dev enc nbits rate channels fmt hsel hlo2 hhi2 hch2 hb2
    simp only [setup, hsel]
    subst hlo2 hhi2 hch2 hb2
    split_ifs <;> simp [geomBuffer]

theorem C4_geometry_witness :
    targetFrames 8192 2 2 = specTargetFrames 8192 2 2 ∧
    targetFrames 8192 2 2 = 16384 ∧
    rangeLimit (targetFrames 8192 2 2) 64 2048 = 2048 ∧
    geomPeriod 8192 2 2 64 2048 = 256 ∧
    geomBuffer 8192 2 2 64 2048 = 2048 ∧
    64 ≤ geomPeriod 8192 2 2 64 2048 ∧
    geomPeriod 8192 2 2 64 2048 ≤ 2048 ∧
    64 ≤ geomBuffer 8192 2 2 64 2048 ∧ geomBuffer 8192 2 2 64 2048 ≤ 2048 ∧
    geomPeriod 8192 2 2 64 2048 * 2 ≤ geomBuffer 8192 2 2 64 2048 :=
  ⟨(C4_geometry 8192 2 2 64 2048 (by decide)).1, by decide, by decide,
   by decide, by decide, by decide, by decide, by decide, by decide,
   by decide⟩

/-- C5: after the device has adjusted the requested period and buffer
sizes, if the final `period × 2` exceeds the final buffer size then
`setup` fails with the buffer-too-small error and returns without
committing hardware parameters or preparing the device; otherwise it
proceeds to commit and prepare. -/
theorem C5_setup (dev : Device) (enc : SoxEnc)
    (nbits rate channels bufsiz : Nat) (fmt : Nat)
    (hsel : (select_format enc nbits dev.mask).format = some fmt) :
    (dev.periodNear (geomPeriod bufsiz (fmtAt fmt).bytes
        (dev.channelsNear channels) dev.bufMin dev.bufMax) * 2
       > dev.bufferNear (geomPeriod bufsiz (fmtAt fmt).bytes
        (dev.channelsNear channels) dev.bufMin dev.bufMax * 8) →
      (setup dev enc nbits rate channels bufsiz).1
          = .error .bufferTooSmall ∧
      HwCall.commitParams ∉ (setup dev enc nbits rate channels bufsiz).2 ∧
      HwCall.prepareDev ∉ (setup dev enc nbits rate channels bufsiz).2) ∧
    (¬ dev.periodNear (geomPeriod bufsiz (fmtAt fmt).bytes
        (dev.channelsNear channels) dev.bufMin dev.bufMax) * 2
       > dev.bufferNear (geomPeriod bufsiz (fmtAt fmt).bytes
        (dev.channelsNear channels) dev.bufMin dev.bufMax * 8) →
      (∃ s, (setup dev enc nbits rate channels bufsiz).1 = .ok s) ∧
      HwCall.commitParams ∈ (setup dev enc nbits rate channels bufsiz).2 ∧
      HwCall.prepareDev ∈ (setup dev enc nbits rate channels bufsiz).2) := by
  constructor
  · intro hbig
    simp only [setup, hsel]
    rw [if_pos hbig]
    refine ⟨rfl, ?_, ?_⟩ <;> simp
  · intro hsmall
    simp only [setup, hsel]
    rw [if_neg hsmall]
    refine ⟨⟨_, rfl⟩, ?_, ?_⟩ <;> simp

theorem C5_setup_witness :
    ((setup ⟨fun _ => true, id, id, 64, 2048, fun _ => 2000, fun _ => 2048⟩
        .sign2 16 44100 2 8192).1 = .error .bufferTooSmall ∧
     HwCall.commitParams ∉ (setup ⟨fun _ => true, id, id, 64, 2048,
        fun _ => 2000, fun _ => 2048⟩ .sign2 16 44100 2 8192).2 ∧
     HwCall.prepareDev ∉ (setup ⟨fun _ => true, id, id, 64, 2048,
        fun _ => 2000, fun _ => 2048⟩ .sign2 16 44100 2 8192).2) ∧
    ((∃ s, (setup ⟨fun _ => true, id, id, 64, 2048, id, id⟩
        .sign2 16 44100 2 8192).1 = .ok s) ∧
     HwCall.commitParams ∈ (setup ⟨fun _ => true, id, id, 64, 2048,
        id, id⟩ .sign2 16 44100 2 8192).2 ∧
     HwCall.prepareDev ∈ (setup ⟨fun _ => true, id, id, 64, 2048,
        id, id⟩ .sign2 16 44100 2 8192).2) :=
  ⟨(C5_setup ⟨fun _ => true, id, id, 64, 2048, fun _ => 2000,
      fun _ => 2048⟩ .sign2 16 44100 2 8192 2 (by decide)).1 (by decide),
   (C5_setup ⟨fun _ => true, id, id, 64, 2048, id, id⟩
      .sign2 16 44100 2 8192 2 (by decide)).2 (by decide)⟩


/-! ## Teardown (`stop` lines 422-428, `stop_write` lines 430-441)

`stop` closes the device handle and frees the conversion buffer `p->buf`;
nothing in it releases the transfer buffer `p->thread_buf`.  `stop_write`
first pads the written sample count up to a whole multiple of
`channels * period` by pushing zero samples through the normal `write_`
path, frees the local pad buffer, drains the device and then runs
`stop`. -/

/-- Return value `SOX_SUCCESS`. -/
def SOX_SUCCESS : Int := 0

/-- Teardown actions, in program order.  `freeTransferBuf` is a possible
action of the vocabulary that the code never performs. -/
inductive TeardownStep
  | writeCall (samples : List Int)
  | freePadBuf
  | drainDev
  | closeDev
  | freeConvBuf
  | freeTransferBuf
deriving DecidableEq

/-- Actions of `stop` (lines 422-428): `snd_pcm_close(p->pcm)` then
`free(p->buf)`. -/
def stop_steps : List TeardownStep := [.closeDev, .freeConvBuf]

/-- `stop`: its actions and its return value (`SOX_SUCCESS`,
line 427). -/
def stop_run : List TeardownStep × Int := (stop_steps, SOX_SUCCESS)

/-- Actions of `stop_write` (lines 430-441): with
`n = channels * period` and `npad = n - olength % n`, write `npad`
zero-valued samples through the normal write path when `npad != n`, free
the pad buffer, drain, then perform `stop`'s actions. -/
def stop_write_steps (channels period olength : Nat) : List TeardownStep :=
  let n := channels * period
  let npad := n - olength % n
  (if npad ≠ n then [TeardownStep.writeCall (List.replicate npad 0)] else [])
    ++ [.freePadBuf, .drainDev] ++ stop_steps

/-- C6: at playback teardown with `n = channels * period`, if
`olength % n ≠ 0` exactly `n - olength % n` zero-valued samples are
passed through the normal write path before the drain; if
`olength % n = 0` no padding samples are written; in both cases the drain
and the capture-stop steps follow. -/
theorem C6_stop_write (channels period olength : Nat)
    (h : 0 < channels * period) :
    (olength % (channels * period) ≠ 0 →
      stop_write_steps channels period olength
        = [TeardownStep.writeCall (List.replicate
             (channels * period - olength % (channels * period)) 0),
           .freePadBuf, .drainDev, .closeDev, .freeConvBuf]) ∧
    (olength % (channels * period) = 0 →
      stop_write_steps channels period olength
        = [.freePadBuf, .drainDev, .closeDev, .freeConvBuf]) ∧
    (∀ s, TeardownStep.writeCall s ∈ stop_write_steps channels period olength →
      s.length = channels * period - olength % (channels * period) ∧
      ∀ x ∈ s, x = 0) := by
  have hmod : olength % (channels * period) < channels * period :=
    Nat.mod_lt _ h
  refine ⟨?_, ?_, ?_⟩
  · intro hne
    simp only [stop_write_steps, stop_steps]
    rw [if_pos (by omega)]
    rfl
  · intro heq
    simp only [stop_write_steps, stop_steps, heq]
    rw [if_neg (by omega)]
    rfl
  · intro s hs
    simp only [stop_write_steps, stop_steps] at hs
    by_cases hne : channels * period - olength % (channels * period)
        ≠ channels * period
    · rw [if_pos hne] at hs
      simp at hs
      subst hs
      exact ⟨List.length_replicate _ _,
        fun x hx => List.eq_of_mem_replicate hx⟩
    · rw [if_neg hne] at hs
      simp at hs

theorem C6_stop_write_witness :
    stop_write_steps 2 3 7
      = [TeardownStep.writeCall (List.replicate 5 0),
         .freePadBuf, .drainDev, .closeDev, .freeConvBuf] ∧
    stop_write_steps 2 3 12 = [.freePadBuf, .drainDev, .closeDev,
      .freeConvBuf] ∧
    (List.replicate 5 (0 : Int)).length = 2 * 3 - 7 % (2 * 3) :=
  ⟨(C6_stop_write 2 3 7 (by decide)).1 (by decide),
   (C6_stop_write 2 3 12 (by decide)).2.1 (by decide),
   by decide⟩

/-- C9 counterexample: the teardown path never releases the transfer
buffer — `stop` (also run at the end of `stop_write`) only closes the
device handle and frees the conversion buffer, refuting the claim that
both buffers are released. -/
theorem C9_counterexample :
    TeardownStep.freeTransferBuf ∉ stop_run.1 ∧
    TeardownStep.freeTransferBuf ∉ stop_write_steps 2 3 7 := by decide

/-- C9 amended: closing a session closes the device handle and releases
the conversion buffer, in that order, before returning success; the
transfer buffer is not released.  The playback stop ends with the same
capture-stop steps. -/
theorem C9_stop (channels period olength : Nat) :
    stop_run = ([TeardownStep.closeDev, TeardownStep.freeConvBuf],
      SOX_SUCCESS) ∧
    TeardownStep.closeDev ∈ stop_run.1 ∧
    TeardownStep.freeConvBuf ∈ stop_run.1 ∧
    TeardownStep.freeTransferBuf ∉ stop_run.1 ∧
    (∃ pre, stop_write_steps channels period olength = pre ++ stop_run.1) := by
  refine ⟨rfl, by decide, by decide, by decide, ?_⟩
  exact ⟨(if channels * period - olength % (channels * period)
            ≠ channels * period
          then [TeardownStep.writeCall (List.replicate
            (channels * period - olength % (channels * period)) 0)]
          else []) ++ [.freePadBuf, .drainDev],
    by simp [stop_write_steps, stop_run, stop_steps]⟩

end SoxAlsa
